import Mathlib

/-!
Shallow embedding of the job-scheduling engine in `JobScheduler.cpp`:
the `Job` entity, the four dispatch-policy variants (FCFS, SJF,
RoundRobin, PriorityAging), the time-stepped `Simulator::run` loop, and
the `UIController::createSimulator` composition.  Machine `int`s are
modelled as `Int` (no overflow is reachable on the inputs considered).
`std::queue` / `std::vector` ready-sets are modelled as `List Job` with
the head as the queue front; `std::sort` (unstable, tie order
unspecified) is modelled by the stable `List.insertionSort`, a
deterministic refinement.
-/

namespace JobSched

/-- Mirror of the C++ `Job` class (JobScheduler.cpp lines 18-56). -/
structure Job where
  jobId : Int
  name : String
  arrivalTime : Int
  burstTime : Int
  priority : Int
  remainingTime : Int
  startTime : Int
  completionTime : Int
  waitingTime : Int
  turnaroundTime : Int
deriving Repr, DecidableEq

/-- The `Job(int id, int arrival, int burst, int prio)` constructor
(lines 31-33): `remainingTime = burst`, `startTime = completionTime = -1`,
`waitingTime = turnaroundTime = 0`. -/
def mkJob (id arrival burst prio : Int) : Job :=
  { jobId := id, name := "Job" ++ toString id, arrivalTime := arrival,
    burstTime := burst, priority := prio, remainingTime := burst,
    startTime := -1, completionTime := -1, waitingTime := 0, turnaroundTime := 0 }

/-- `Job::calculateMetrics` (lines 39-42). -/
def Job.calculateMetrics (j : Job) : Job :=
  let t := j.completionTime - j.arrivalTime
  { j with turnaroundTime := t, waitingTime := t - j.burstTime }

/-- The sentinel `Job(-1, 0, 0, 0)` returned by every `getNextJob`
on an empty ready-set (lines 88, 122, 167, 209). -/
def sentinelJob : Job := mkJob (-1) 0 0 0

/-- Tag distinguishing the four concrete `Scheduler` subclasses. -/
inductive Variant where
  | fcfs | sjf | rr | prio
deriving Repr, DecidableEq

/-- State common to the four `Scheduler` subclasses: the ready-set
container (`fcfsQueue` / `sjfQueue` / `rrQueue` / `priorityQueue`, all
behaving as a front-at-head list), the per-variant parameters
(`timeQuantum`, `agingThreshold`, `agingIncrement`; unused fields are 0
for variants that lack them), and the shared `scheduledJobs` log. -/
structure SchedState where
  variant : Variant
  queue : List Job
  timeQuantum : Int
  agingThreshold : Int
  agingIncrement : Int
  scheduledJobs : List Job
deriving Repr, DecidableEq

/-- `FCFSScheduler()` (line 78). -/
def mkFCFSScheduler : SchedState := ⟨.fcfs, [], 0, 0, 0, []⟩

/-- `SJFScheduler()` (line 118). -/
def mkSJFScheduler : SchedState := ⟨.sjf, [], 0, 0, 0, []⟩

/-- `RoundRobinScheduler(int quantum)` (line 163). -/
def mkRoundRobinScheduler (quantum : Int) : SchedState := ⟨.rr, [], quantum, 0, 0, []⟩

/-- `PriorityScheduler(int agingThreshold, int agingIncrement)` (lines 204-205). -/
def mkPriorityScheduler (th inc : Int) : SchedState := ⟨.prio, [], 0, th, inc, []⟩

/-- `addJob`: every variant pushes at the back of its container
(lines 80, 120, 165, 207). -/
def SchedState.addJob (st : SchedState) (j : Job) : SchedState :=
  { st with queue := st.queue ++ [j] }

/-- `hasJobs`: every variant reports whether its container is non-empty
(lines 90, 130, 173, 217). -/
def SchedState.hasJobs (st : SchedState) : Bool := !st.queue.isEmpty

/-- `std::min_element` followed by `erase` of the found iterator:
returns the first element minimising `f` together with the remaining
list in original order, or `none` on the empty list. -/
def selectMinBy (f : Job → Int) : List Job → Option (Job × List Job)
  | [] => none
  | j :: rest =>
    match selectMinBy f rest with
    | none => some (j, [])
    | some (m, rest') => if f j ≤ f m then some (j, rest) else some (m, j :: rest')

/-- `getNextJob` of each variant (lines 81-89, 121-129, 166-172,
208-216): FCFS and RoundRobin pop the queue front; SJF removes the
`min_element` by `remainingTime`; Priority removes the `min_element` by
`priority`.  The popped job is appended to `scheduledJobs`; an empty
ready-set yields the sentinel job and leaves the state unchanged. -/
def SchedState.getNextJob (st : SchedState) : Job × SchedState :=
  match st.variant with
  | .fcfs | .rr =>
    match st.queue with
    | [] => (sentinelJob, st)
    | j :: rest => (j, { st with queue := rest, scheduledJobs := st.scheduledJobs ++ [j] })
  | .sjf =>
    match selectMinBy (fun j => j.remainingTime) st.queue with
    | none => (sentinelJob, st)
    | some (j, rest) => (j, { st with queue := rest, scheduledJobs := st.scheduledJobs ++ [j] })
  | .prio =>
    match selectMinBy (fun j => j.priority) st.queue with
    | none => (sentinelJob, st)
    | some (j, rest) => (j, { st with queue := rest, scheduledJobs := st.scheduledJobs ++ [j] })

/-- Stable sort by an integer key, modelling `std::sort` with a
`f a < f b` comparator (a deterministic refinement: `std::sort` leaves
the relative order of tied elements unspecified). -/
def sortByKey (f : Job → Int) (l : List Job) : List Job :=
  List.insertionSort (fun a b => f a ≤ f b) l

/-- `PriorityScheduler::applyAging` (lines 230-237): each ready job
whose age `currentTime - arrivalTime` exceeds the threshold has its
priority reduced by the increment and clamped below at 0. -/
def applyAging (th inc t : Int) (q : List Job) : List Job :=
  q.map fun j =>
    if th < t - j.arrivalTime then
      let p := j.priority - inc
      { j with priority := if p < 0 then 0 else p }
    else j

/-- `schedule(currentTime)` of each variant: a no-op for FCFS and
RoundRobin (lines 91, 174); SJF sorts its queue by `remainingTime`
(lines 131-134); Priority applies aging then sorts by `priority`
(lines 218-222). -/
def SchedState.schedule (st : SchedState) (t : Int) : SchedState :=
  match st.variant with
  | .fcfs | .rr => st
  | .sjf => { st with queue := sortByKey (fun j => j.remainingTime) st.queue }
  | .prio =>
      let aged := applyAging st.agingThreshold st.agingIncrement t st.queue
      { st with queue := sortByKey (fun j => j.priority) aged }

/-- `setJobs` of each variant (lines 92-97, 135-141, 175-181, 223-229):
reloads the ready-set (FCFS/RR in given order, SJF sorted by
`burstTime`, Priority sorted by `priority`) and clears `scheduledJobs`. -/
def SchedState.setJobs (st : SchedState) (jobs : List Job) : SchedState :=
  match st.variant with
  | .fcfs | .rr => { st with queue := jobs, scheduledJobs := [] }
  | .sjf => { st with queue := sortByKey (fun j => j.burstTime) jobs, scheduledJobs := [] }
  | .prio => { st with queue := sortByKey (fun j => j.priority) jobs, scheduledJobs := [] }

/-- Mirror of the `Simulator` class state (lines 255-260). -/
structure SimState where
  currentTime : Int
  sched : SchedState
  allJobs : List Job
  finishedJobs : List Job
  ganttChart : List (Int × Int)
deriving Repr, DecidableEq

/-- The `run()` loop guard, negated: the loop exits exactly when the
backlog `allJobs` is empty and the policy has no ready jobs (line 266). -/
def loopDone (s : SimState) : Bool := s.allJobs.isEmpty && !s.sched.hasJobs

/-- Line 279: `if (job.startTime == -1) job.startTime = currentTime`. -/
def startJob (t : Int) (j : Job) : Job :=
  if j.startTime = -1 then { j with startTime := t } else j

/-- The execute branch of one `run()` iteration (lines 277-289): pop a
job, stamp its `startTime` on first execution, append a
`(jobId, currentTime)` timeline record, decrement `remainingTime`,
advance time, then finalize the job or re-admit it. -/
def execPhase (t : Int) (sch : SchedState) (backlog fin : List Job)
    (gantt : List (Int × Int)) : SimState :=
  let pr : Job × SchedState := sch.getNextJob
  let job1 : Job := startJob t pr.1
  let job2 : Job := { job1 with remainingTime := job1.remainingTime - 1 }
  if job2.remainingTime = 0 then
    ⟨t + 1, pr.2, backlog, fin ++ [Job.calculateMetrics { job2 with completionTime := t + 1 }],
     gantt ++ [(job1.jobId, t)]⟩
  else
    ⟨t + 1, pr.2.addJob job2, backlog, fin, gantt ++ [(job1.jobId, t)]⟩

/-- One iteration of the `run()` loop body (lines 267-292): admit every
backlog job that has arrived, let the policy re-evaluate its ready-set,
then either execute one unit of one job or idle for one unit. -/
def simStep (s : SimState) : SimState :=
  let arrived := s.allJobs.filter (fun j => decide (j.arrivalTime ≤ s.currentTime))
  let notArrived := s.allJobs.filter (fun j => !decide (j.arrivalTime ≤ s.currentTime))
  let sch2 := (arrived.foldl SchedState.addJob s.sched).schedule s.currentTime
  if sch2.hasJobs then execPhase s.currentTime sch2 notArrived s.finishedJobs s.ganttChart
  else ⟨s.currentTime + 1, sch2, notArrived, s.finishedJobs, s.ganttChart⟩

/-- `Simulator::run` (lines 265-294), with an explicit fuel bound on the
number of loop iterations: the loop body is iterated until the guard
fails or the fuel runs out. -/
def runFuel : Nat → SimState → SimState
  | 0, s => s
  | n + 1, s => if loopDone s then s else runFuel n (simStep s)

/-- The `Simulator` constructor (lines 262-263): time 0, the given
scheduler, the given backlog, empty outputs. -/
def mkSimulator (sched : SchedState) (jobs : List Job) : SimState :=
  ⟨0, sched, jobs, [], []⟩

/-- `UIController::createSimulator` (lines 555-566): the job list is
loaded into the scheduler via `setJobs` AND handed to the `Simulator`
as its backlog, so every job is submitted twice. -/
def createSimulator (sched : SchedState) (jobs : List Job) : SimState :=
  mkSimulator (sched.setJobs jobs) jobs

/-- All fields of a job except its (mutable under aging) `priority` and
its display `name`; `schedule` can only permute the ready-set and change
priorities, so it preserves each job's core. -/
def Job.core (j : Job) : Int × Int × Int × Int × Int × Int × Int × Int :=
  (j.jobId, j.arrivalTime, j.burstTime, j.remainingTime,
   j.startTime, j.completionTime, j.waitingTime, j.turnaroundTime)

/-- Total remaining work of a list of jobs, clamped at 0 per job. -/
def remWeight (l : List Job) : Nat := (l.map (fun j => j.remainingTime.toNat)).sum

/-- Total slack until the jobs of a list have arrived, measured from
time `t` (one extra unit per job so that a strictly-future arrival
contributes at least 2). -/
def waitWeight (t : Int) (l : List Job) : Nat :=
  (l.map (fun j => (j.arrivalTime - t + 1).toNat)).sum

/-- Termination measure for the `run()` loop: remaining work in the
ready-set and backlog plus arrival slack of the backlog. -/
def simMeasure (s : SimState) : Nat :=
  remWeight s.sched.queue + remWeight s.allJobs + waitWeight s.currentTime s.allJobs

/-- Every job still in the system has at least one unit of work left;
this is the well-formedness the spec demands (`burstTime ≥ 1` at
submission) propagated to reachable states. -/
def SimInv (s : SimState) : Prop :=
  (∀ j ∈ s.sched.queue, 1 ≤ j.remainingTime) ∧ (∀ j ∈ s.allJobs, 1 ≤ j.remainingTime)

/-- A job as created by the caller: not yet started, full work left. -/
def FreshJob (j : Job) : Prop :=
  j.startTime = -1 ∧ j.remainingTime = j.burstTime ∧ 1 ≤ j.burstTime

/-- State of a job in the ready-set at current time `t` when jobs are
admitted only through the arrival check of the `run()` loop. -/
def ReadyOk (t : Int) (j : Job) : Prop :=
  1 ≤ j.remainingTime ∧ j.remainingTime ≤ j.burstTime ∧ j.arrivalTime ≤ t ∧
  (j.startTime = -1 → j.remainingTime = j.burstTime) ∧
  (j.startTime ≠ -1 →
    j.arrivalTime ≤ j.startTime ∧ j.startTime + (j.burstTime - j.remainingTime) ≤ t)

/-- The ordering facts the spec states for a finished job. -/
def FinishedOk (j : Job) : Prop :=
  j.arrivalTime ≤ j.startTime ∧ j.startTime ≤ j.completionTime ∧ 0 ≤ j.waitingTime

/-- Invariant of a simulation started with an empty ready-set and a
backlog of fresh jobs. -/
def FreshInv (s : SimState) : Prop :=
  0 ≤ s.currentTime ∧ (∀ j ∈ s.allJobs, FreshJob j) ∧
  (∀ j ∈ s.sched.queue, ReadyOk s.currentTime j) ∧
  (∀ j ∈ s.finishedJobs, FinishedOk j)

/-- The two variants whose ready-set is a plain insertion-order queue. -/
def QueueLike (v : Variant) : Prop := v = Variant.fcfs ∨ v = Variant.rr

/-- Lock-step correspondence of two simulations whose schedulers are
both plain queues (FCFS or RoundRobin with any stored quantum): all
observable state coincides. -/
def SimRel (s1 s2 : SimState) : Prop :=
  s1.currentTime = s2.currentTime ∧ s1.allJobs = s2.allJobs ∧
  s1.finishedJobs = s2.finishedJobs ∧ s1.ganttChart = s2.ganttChart ∧
  s1.sched.queue = s2.sched.queue ∧ s1.sched.scheduledJobs = s2.sched.scheduledJobs ∧
  QueueLike s1.sched.variant ∧ QueueLike s2.sched.variant

/-- The metric equations `Job::calculateMetrics` establishes. -/
def MetricsOk (j : Job) : Prop :=
  j.turnaroundTime = j.completionTime - j.arrivalTime ∧
  j.waitingTime = j.turnaroundTime - j.burstTime

/-- Sum of the `burstTime` fields of a job list. -/
def sumBurst (l : List Job) : Int := (l.map Job.burstTime).sum

/-! ### Basic lemmas about the embedding -/

theorem runFuel_done {s : SimState} (h : loopDone s = true) : ∀ n, runFuel n s = s
  | 0 => rfl
  | n + 1 => by simp [runFuel, h]

theorem runFuel_add (n m : Nat) (s : SimState) :
    runFuel (n + m) s = runFuel m (runFuel n s) := by
  induction n generalizing s with
  | zero => simp [runFuel]
  | succ k ih =>
    by_cases h : loopDone s = true
    · simp [runFuel_done h]
    · have h1 : runFuel (k + 1 + m) s = runFuel (k + m) (simStep s) := by
        have hk : k + 1 + m = (k + m) + 1 := by omega
        rw [hk]
        simp [runFuel, h]
      have h2 : runFuel (k + 1) s = runFuel k (simStep s) := by
        simp [runFuel, h]
      rw [h1, h2, ih]

theorem selectMinBy_eq_none {f : Job → Int} :
    ∀ {q : List Job}, selectMinBy f q = none → q = [] := by
  intro q h
  cases q with
  | nil => rfl
  | cons a as =>
    simp only [selectMinBy] at h
    split at h
    · simp at h
    · split at h <;> simp at h

theorem selectMinBy_spec {f : Job → Int} :
    ∀ {q rest : List Job} {j : Job}, selectMinBy f q = some (j, rest) →
      q.Perm (j :: rest) ∧ ∀ k ∈ q, f j ≤ f k := by
  intro q
  induction q with
  | nil => intro rest j h; simp [selectMinBy] at h
  | cons a as ih =>
    intro rest j h
    simp only [selectMinBy] at h
    split at h
    · rename_i heq
      have has : as = [] := selectMinBy_eq_none heq
      simp only [Option.some.injEq, Prod.mk.injEq] at h
      subst has
      refine ⟨?_, ?_⟩
      · rw [← h.1, ← h.2]
      · intro k hk
        rw [← h.1]
        simp at hk
        rw [hk]
    · rename_i m r' heq
      obtain ⟨hperm, hmin⟩ := ih heq
      by_cases hf : f a ≤ f m
      · rw [if_pos hf] at h
        simp only [Option.some.injEq, Prod.mk.injEq] at h
        refine ⟨by rw [← h.1, ← h.2], ?_⟩
        intro k hk
        rw [← h.1]
        rcases List.mem_cons.mp hk with hk | hk
        · rw [hk]
        · exact le_trans hf (hmin k hk)
      · rw [if_neg hf] at h
        simp only [Option.some.injEq, Prod.mk.injEq] at h
        have hma : f m ≤ f a := le_of_not_le hf
        refine ⟨?_, ?_⟩
        · rw [← h.1, ← h.2]
          exact (hperm.cons a).trans (List.Perm.swap m a r')
        · intro k hk
          rw [← h.1]
          rcases List.mem_cons.mp hk with hk | hk
          · rw [hk]; exact hma
          · exact hmin k hk

theorem sortByKey_perm (f : Job → Int) (l : List Job) : (sortByKey f l).Perm l :=
  List.perm_insertionSort _ l

theorem filterSplit_perm (p : Job → Bool) (l : List Job) :
    (l.filter p ++ l.filter (fun a => !p a)).Perm l := by
  induction l with
  | nil => simp
  | cons a as ih =>
    cases h : p a with
    | true =>
      simp only [List.filter_cons, h, Bool.not_true, if_true, if_false, cond_true, cond_false]
      simpa using ih.cons a
    | false =>
      simp only [List.filter_cons, h, Bool.not_false, if_true, if_false, cond_true, cond_false]
      simpa using List.perm_middle.trans (ih.cons a)

theorem addJob_eq (st : SchedState) (j : Job) :
    st.addJob j = { st with queue := st.queue ++ [j] } := rfl

theorem foldl_addJob (l : List Job) (st : SchedState) :
    l.foldl SchedState.addJob st = { st with queue := st.queue ++ l } := by
  induction l generalizing st with
  | nil => simp
  | cons a as ih =>
    rw [List.foldl_cons, ih]
    simp [SchedState.addJob]

theorem hasJobs_iff (st : SchedState) : st.hasJobs = true ↔ st.queue ≠ [] := by
  cases h : st.queue <;> simp [SchedState.hasJobs, h]

theorem getNextJob_empty (st : SchedState) (h : st.queue = []) :
    st.getNextJob = (sentinelJob, st) := by
  cases st with
  | mk v q tq th inc sj =>
    simp only at h
    subst h
    cases v <;> rfl

theorem getNextJob_spec (st : SchedState) (h : st.queue ≠ []) :
    ∃ j rest, st.getNextJob =
        (j, { st with queue := rest, scheduledJobs := st.scheduledJobs ++ [j] }) ∧
      st.queue.Perm (j :: rest) := by
  cases st with
  | mk v q tq th inc sj =>
    simp only at h ⊢
    cases v with
    | fcfs =>
      cases q with
      | nil => exact absurd rfl h
      | cons a as => exact ⟨a, as, rfl, List.Perm.refl _⟩
    | rr =>
      cases q with
      | nil => exact absurd rfl h
      | cons a as => exact ⟨a, as, rfl, List.Perm.refl _⟩
    | sjf =>
      cases hm : selectMinBy (fun j => j.remainingTime) q with
      | none => exact absurd (selectMinBy_eq_none hm) h
      | some p =>
        obtain ⟨j0, r0⟩ := p
        refine ⟨j0, r0, ?_, (selectMinBy_spec hm).1⟩
        simp [SchedState.getNextJob, hm]
    | prio =>
      cases hm : selectMinBy (fun j => j.priority) q with
      | none => exact absurd (selectMinBy_eq_none hm) h
      | some p =>
        obtain ⟨j0, r0⟩ := p
        refine ⟨j0, r0, ?_, (selectMinBy_spec hm).1⟩
        simp [SchedState.getNextJob, hm]

theorem core_fields {j k : Job} (h : j.core = k.core) :
    j.jobId = k.jobId ∧ j.arrivalTime = k.arrivalTime ∧ j.burstTime = k.burstTime ∧
    j.remainingTime = k.remainingTime ∧ j.startTime = k.startTime ∧
    j.completionTime = k.completionTime ∧ j.waitingTime = k.waitingTime ∧
    j.turnaroundTime = k.turnaroundTime := by
  simpa [Job.core, Prod.ext_iff] using h

theorem applyAging_core_map (th inc t : Int) : ∀ q : List Job,
    (applyAging th inc t q).map Job.core = q.map Job.core
  | [] => rfl
  | a :: as => by
    have ih := applyAging_core_map th inc t as
    simp only [applyAging, List.map_cons] at ih ⊢
    rw [ih]
    congr 1
    by_cases hc : th < t - a.arrivalTime <;> simp [hc, Job.core]

theorem schedule_fields (st : SchedState) (t : Int) :
    (st.schedule t).variant = st.variant ∧ (st.schedule t).scheduledJobs = st.scheduledJobs ∧
    (st.schedule t).timeQuantum = st.timeQuantum ∧
    (st.schedule t).agingThreshold = st.agingThreshold ∧
    (st.schedule t).agingIncrement = st.agingIncrement := by
  cases st with
  | mk v q tq th inc sj => cases v <;> exact ⟨rfl, rfl, rfl, rfl, rfl⟩

theorem schedule_core_perm (st : SchedState) (t : Int) :
    ((st.schedule t).queue.map Job.core).Perm (st.queue.map Job.core) := by
  cases st with
  | mk v q tq th inc sj =>
    cases v with
    | fcfs => exact List.Perm.refl _
    | rr => exact List.Perm.refl _
    | sjf => exact (sortByKey_perm _ _).map Job.core
    | prio =>
      have h1 := (sortByKey_perm (fun j => j.priority) (applyAging th inc t q)).map Job.core
      rw [applyAging_core_map] at h1
      exact h1

theorem setJobs_queue_perm (st : SchedState) (jobs : List Job) :
    ((st.setJobs jobs).queue).Perm jobs := by
  cases st with
  | mk v q tq th inc sj =>
    cases v with
    | fcfs => exact List.Perm.refl _
    | rr => exact List.Perm.refl _
    | sjf => exact sortByKey_perm _ _
    | prio => exact sortByKey_perm _ _

theorem corePerm_mem {l1 l2 : List Job}
    (h : (l1.map Job.core).Perm (l2.map Job.core)) :
    ∀ j ∈ l1, ∃ k ∈ l2, j.core = k.core := by
  intro j hj
  have hmem : j.core ∈ l2.map Job.core := h.mem_iff.mp (List.mem_map_of_mem _ hj)
  obtain ⟨k, hk, he⟩ := List.mem_map.mp hmem
  exact ⟨k, hk, he.symm⟩

theorem remWeight_append (a b : List Job) :
    remWeight (a ++ b) = remWeight a + remWeight b := by
  simp [remWeight]

theorem remWeight_cons (j : Job) (l : List Job) :
    remWeight (j :: l) = j.remainingTime.toNat + remWeight l := by
  simp [remWeight]

theorem remWeight_of_perm {l1 l2 : List Job} (h : l1.Perm l2) :
    remWeight l1 = remWeight l2 :=
  (h.map _).sum_eq

theorem remWeight_of_corePerm {l1 l2 : List Job}
    (h : (l1.map Job.core).Perm (l2.map Job.core)) : remWeight l1 = remWeight l2 := by
  have h2 := (h.map (fun c => c.2.2.2.1.toNat)).sum_eq
  simpa [remWeight, List.map_map, Function.comp, Job.core] using h2

theorem waitWeight_append (t : Int) (a b : List Job) :
    waitWeight t (a ++ b) = waitWeight t a + waitWeight t b := by
  simp [waitWeight]

theorem waitWeight_succ_le (t : Int) (l : List Job) :
    waitWeight (t + 1) l ≤ waitWeight t l := by
  simp only [waitWeight]
  exact List.sum_le_sum fun j hj => by omega

theorem waitWeight_of_perm {t : Int} {l1 l2 : List Job} (h : l1.Perm l2) :
    waitWeight t l1 = waitWeight t l2 :=
  (h.map _).sum_eq

theorem waitWeight_succ_lt (t : Int) {l : List Job} (hne : l ≠ [])
    (h : ∀ j ∈ l, t < j.arrivalTime) : waitWeight (t + 1) l < waitWeight t l := by
  cases l with
  | nil => exact absurd rfl hne
  | cons a as =>
    have ha := h a (List.mem_cons_self a as)
    have h1 : (a.arrivalTime - (t + 1) + 1).toNat < (a.arrivalTime - t + 1).toNat := by omega
    have h2 : waitWeight (t + 1) as ≤ waitWeight t as := waitWeight_succ_le t as
    simp only [waitWeight, List.map_cons, List.sum_cons] at h2 ⊢
    omega

theorem startJob_fields (t : Int) (j : Job) :
    (startJob t j).jobId = j.jobId ∧ (startJob t j).arrivalTime = j.arrivalTime ∧
    (startJob t j).burstTime = j.burstTime ∧
    (startJob t j).remainingTime = j.remainingTime ∧
    (startJob t j).priority = j.priority := by
  unfold startJob
  split <;> exact ⟨rfl, rfl, rfl, rfl, rfl⟩

theorem startJob_start (t : Int) (j : Job) :
    (startJob t j).startTime = if j.startTime = -1 then t else j.startTime := by
  unfold startJob
  by_cases h : j.startTime = -1 <;> simp [h]

theorem loopDone_true_iff (s : SimState) :
    loopDone s = true ↔ s.allJobs = [] ∧ s.sched.queue = [] := by
  simp [loopDone, SchedState.hasJobs]

theorem loopDone_false_iff (s : SimState) :
    loopDone s = false ↔ (s.allJobs ≠ [] ∨ s.sched.queue ≠ []) := by
  rw [← Bool.not_eq_true, loopDone_true_iff]
  tauto

theorem execPhase_eq {sch sch' : SchedState} {j : Job} (h : sch.getNextJob = (j, sch'))
    (t : Int) (backlog fin : List Job) (gantt : List (Int × Int)) :
    execPhase t sch backlog fin gantt =
      if (startJob t j).remainingTime - 1 = 0 then
        ⟨t + 1, sch', backlog,
         fin ++ [Job.calculateMetrics
           { startJob t j with
             remainingTime := (startJob t j).remainingTime - 1,
             completionTime := t + 1 }],
         gantt ++ [((startJob t j).jobId, t)]⟩
      else
        ⟨t + 1, sch'.addJob { startJob t j with remainingTime := (startJob t j).remainingTime - 1 },
         backlog, fin, gantt ++ [((startJob t j).jobId, t)]⟩ := by
  simp only [execPhase, h]

theorem simStep_eq (s : SimState) :
    simStep s =
      if (SchedState.schedule
            { s.sched with queue :=
                s.sched.queue ++ s.allJobs.filter (fun j => decide (j.arrivalTime ≤ s.currentTime)) }
            s.currentTime).hasJobs then
        execPhase s.currentTime
          (SchedState.schedule
            { s.sched with queue :=
                s.sched.queue ++ s.allJobs.filter (fun j => decide (j.arrivalTime ≤ s.currentTime)) }
            s.currentTime)
          (s.allJobs.filter (fun j => !decide (j.arrivalTime ≤ s.currentTime)))
          s.finishedJobs s.ganttChart
      else
        ⟨s.currentTime + 1,
         SchedState.schedule
            { s.sched with queue :=
                s.sched.queue ++ s.allJobs.filter (fun j => decide (j.arrivalTime ≤ s.currentTime)) }
            s.currentTime,
         s.allJobs.filter (fun j => !decide (j.arrivalTime ≤ s.currentTime)),
         s.finishedJobs, s.ganttChart⟩ := by
  simp only [simStep, foldl_addJob]

theorem simStep_master {s : SimState} (hInv : SimInv s) (hnd : loopDone s = false) :
    SimInv (simStep s) ∧ simMeasure (simStep s) < simMeasure s ∧
    (simStep s).ganttChart.length + remWeight (simStep s).sched.queue +
        remWeight (simStep s).allJobs
      = s.ganttChart.length + remWeight s.sched.queue + remWeight s.allJobs := by
  obtain ⟨hQ, hB⟩ := hInv
  rw [simStep_eq s]
  set A := s.allJobs.filter (fun j => decide (j.arrivalTime ≤ s.currentTime)) with hA
  set R := s.allJobs.filter (fun j => !decide (j.arrivalTime ≤ s.currentTime)) with hR
  set sch2 := SchedState.schedule { s.sched with queue := s.sched.queue ++ A } s.currentTime
    with hsch2
  have hsq : ((sch2.queue).map Job.core).Perm ((s.sched.queue ++ A).map Job.core) :=
    schedule_core_perm _ _
  have hQ2 : ∀ j ∈ sch2.queue, 1 ≤ j.remainingTime := by
    intro j hj
    obtain ⟨k, hk, hc⟩ := corePerm_mem hsq j hj
    rw [(core_fields hc).2.2.2.1]
    rcases List.mem_append.mp hk with hk | hk
    · exact hQ k hk
    · exact hB k (List.mem_of_mem_filter hk)
  have hrem2 : remWeight sch2.queue = remWeight s.sched.queue + remWeight A := by
    rw [remWeight_of_corePerm hsq, remWeight_append]
  have hsplitR : remWeight s.allJobs = remWeight A + remWeight R := by
    rw [← remWeight_append]
    exact (remWeight_of_perm (filterSplit_perm _ _)).symm
  have hsplitW : waitWeight s.currentTime s.allJobs
      = waitWeight s.currentTime A + waitWeight s.currentTime R := by
    rw [← waitWeight_append]
    exact (waitWeight_of_perm (filterSplit_perm _ _)).symm
  have hRB : ∀ j ∈ R, 1 ≤ j.remainingTime := fun j hj => hB j (List.mem_of_mem_filter hj)
  have hwle : waitWeight (s.currentTime + 1) R ≤ waitWeight s.currentTime R :=
    waitWeight_succ_le _ _
  by_cases hhas : sch2.hasJobs = true
  · rw [if_pos hhas]
    have hqne : sch2.queue ≠ [] := (hasJobs_iff _).mp hhas
    obtain ⟨j, rest, hgn, hqperm⟩ := getNextJob_spec sch2 hqne
    have hj1 : 1 ≤ j.remainingTime := hQ2 j (hqperm.mem_iff.mpr (List.mem_cons_self _ _))
    have hrest : ∀ k ∈ rest, 1 ≤ k.remainingTime := fun k hk =>
      hQ2 k (hqperm.mem_iff.mpr (List.mem_cons_of_mem _ hk))
    have hremq : remWeight sch2.queue = j.remainingTime.toNat + remWeight rest := by
      rw [remWeight_of_perm hqperm, remWeight_cons]
    have hsrem : (startJob s.currentTime j).remainingTime = j.remainingTime :=
      (startJob_fields _ _).2.2.2.1
    rw [execPhase_eq hgn]
    by_cases hfin : (startJob s.currentTime j).remainingTime - 1 = 0
    · rw [if_pos hfin]
      rw [hsrem] at hfin
      refine ⟨⟨fun k hk => hrest k hk, fun k hk => hRB k hk⟩, ?_, ?_⟩
      · simp only [simMeasure]
        omega
      · simp only [List.length_append, List.length_singleton]
        omega
    · rw [if_neg hfin]
      rw [hsrem] at hfin
      have hj2 : ({ startJob s.currentTime j with
          remainingTime := (startJob s.currentTime j).remainingTime - 1 } : Job).remainingTime
          = j.remainingTime - 1 := by
        simp [hsrem]
      have hq3 : remWeight (rest ++ [{ startJob s.currentTime j with
          remainingTime := (startJob s.currentTime j).remainingTime - 1 }])
          = remWeight rest + (j.remainingTime - 1).toNat := by
        rw [remWeight_append, remWeight_cons]
        simp [remWeight, hsrem]
      refine ⟨⟨?_, fun k hk => hRB k hk⟩, ?_, ?_⟩
      · intro k hk
        simp only [SchedState.addJob] at hk
        rcases List.mem_append.mp hk with hk | hk
        · exact hrest k hk
        · have hkj : k = { startJob s.currentTime j with
              remainingTime := (startJob s.currentTime j).remainingTime - 1 } := by
            simpa using hk
          rw [hkj, hj2]
          omega
      · simp only [simMeasure, SchedState.addJob]
        rw [hq3]
        omega
      · simp only [List.length_append, List.length_singleton, SchedState.addJob]
        rw [hq3]
        omega
  · rw [if_neg hhas]
    have hq2e : sch2.queue = [] := by
      by_contra hne
      exact hhas ((hasJobs_iff _).mpr hne)
    have hQA : s.sched.queue ++ A = [] := by
      rw [hq2e] at hsq
      have h0 : (s.sched.queue ++ A).map Job.core = [] := hsq.symm.eq_nil
      exact List.map_eq_nil_iff.mp h0
    obtain ⟨hQe, hAe⟩ := List.append_eq_nil.mp hQA
    have hallne : s.allJobs ≠ [] := by
      rcases (loopDone_false_iff s).mp hnd with h | h
      · exact h
      · exact absurd hQe h
    have hnotarr : ∀ a ∈ s.allJobs, s.currentTime < a.arrivalTime := by
      intro a ha
      by_contra hcon
      push_neg at hcon
      have hmem : a ∈ A := by
        rw [hA]
        exact List.mem_filter.mpr ⟨ha, by simpa using hcon⟩
      rw [hAe] at hmem
      exact absurd hmem (List.not_mem_nil a)
    have hReq : R = s.allJobs := by
      rw [hR]
      apply List.filter_eq_self.mpr
      intro a ha
      simp only [Bool.not_eq_true', decide_eq_false_iff_not]
      exact not_le.mpr (hnotarr a ha)
    have hwlt : waitWeight (s.currentTime + 1) s.allJobs < waitWeight s.currentTime s.allJobs :=
      waitWeight_succ_lt _ hallne hnotarr
    refine ⟨⟨?_, ?_⟩, ?_, ?_⟩
    · intro k hk
      rw [hq2e] at hk
      exact absurd hk (List.not_mem_nil k)
    · intro k hk
      exact hRB k hk
    · simp only [simMeasure]
      rw [hq2e, hReq, hQe]
      have hz : remWeight ([] : List Job) = 0 := rfl
      omega
    · rw [hq2e, hReq, hQe]

theorem runFuel_terminates (n : Nat) : ∀ s : SimState, SimInv s → simMeasure s ≤ n →
    loopDone (runFuel n s) = true := by
  induction n with
  | zero =>
    intro s hInv hle
    by_contra hcon
    have hnd : loopDone s = false := by
      cases h : loopDone s
      · rfl
      · exact absurd h hcon
    obtain ⟨_, hlt, _⟩ := simStep_master hInv hnd
    omega
  | succ k ih =>
    intro s hInv hle
    by_cases hd : loopDone s = true
    · rw [runFuel_done hd]
      exact hd
    · have hnd : loopDone s = false := by
        cases h : loopDone s
        · rfl
        · exact absurd h hd
      obtain ⟨hInv2, hlt, _⟩ := simStep_master hInv hnd
      have hr : runFuel (k + 1) s = runFuel k (simStep s) := by simp [runFuel, hnd]
      rw [hr]
      exact ih (simStep s) hInv2 (by omega)

theorem runFuel_conserve (n : Nat) : ∀ s : SimState, SimInv s →
    SimInv (runFuel n s) ∧
    (runFuel n s).ganttChart.length + remWeight (runFuel n s).sched.queue +
        remWeight (runFuel n s).allJobs
      = s.ganttChart.length + remWeight s.sched.queue + remWeight s.allJobs := by
  induction n with
  | zero => exact fun s hInv => ⟨hInv, rfl⟩
  | succ k ih =>
    intro s hInv
    by_cases hd : loopDone s = true
    · rw [runFuel_done hd]
      exact ⟨hInv, rfl⟩
    · have hnd : loopDone s = false := by
        cases h : loopDone s
        · rfl
        · exact absurd h hd
      obtain ⟨hInv2, _, hcons⟩ := simStep_master hInv hnd
      have hr : runFuel (k + 1) s = runFuel k (simStep s) := by simp [runFuel, hnd]
      rw [hr]
      obtain ⟨hi, hc⟩ := ih (simStep s) hInv2
      exact ⟨hi, by omega⟩

theorem remWeight_eq_sumBurst {l : List Job}
    (h : ∀ j ∈ l, j.remainingTime = j.burstTime ∧ 1 ≤ j.burstTime) :
    (remWeight l : Int) = sumBurst l := by
  induction l with
  | nil => rfl
  | cons a as ih =>
    have ha := h a (List.mem_cons_self a as)
    have has := ih fun j hj => h j (List.mem_cons_of_mem _ hj)
    have hcast : ((a.remainingTime.toNat : Nat) : Int) = a.burstTime := by
      rw [ha.1]
      exact Int.toNat_of_nonneg (by omega)
    rw [remWeight_cons]
    simp only [sumBurst, List.map_cons, List.sum_cons] at has ⊢
    push_cast
    rw [hcast, ← has]

theorem ReadyOk_mono {t t' : Int} {j : Job} (h : ReadyOk t j) (hle : t ≤ t') :
    ReadyOk t' j := by
  obtain ⟨h1, h2, h3, h4, h5⟩ := h
  exact ⟨h1, h2, le_trans h3 hle, h4,
    fun hne => ⟨(h5 hne).1, le_trans (h5 hne).2 hle⟩⟩

theorem simStep_fresh {s : SimState} (hInv : FreshInv s) : FreshInv (simStep s) := by
  obtain ⟨hT, hBf, hQr, hF⟩ := hInv
  rw [simStep_eq s]
  set A := s.allJobs.filter (fun j => decide (j.arrivalTime ≤ s.currentTime)) with hA
  set R := s.allJobs.filter (fun j => !decide (j.arrivalTime ≤ s.currentTime)) with hR
  set sch2 := SchedState.schedule { s.sched with queue := s.sched.queue ++ A } s.currentTime
    with hsch2
  have hsq : ((sch2.queue).map Job.core).Perm ((s.sched.queue ++ A).map Job.core) :=
    schedule_core_perm _ _
  have hRf : ∀ j ∈ R, FreshJob j := fun j hj => hBf j (List.mem_of_mem_filter hj)
  have hQ2 : ∀ j ∈ sch2.queue, ReadyOk s.currentTime j := by
    intro j hj
    obtain ⟨k, hk, hc⟩ := corePerm_mem hsq j hj
    obtain ⟨-, h2, h3, h4, h5, -, -, -⟩ := core_fields hc
    rcases List.mem_append.mp hk with hk | hk
    · have hr := hQr k hk
      unfold ReadyOk at hr ⊢
      rw [h2, h3, h4, h5]
      exact hr
    · have hmem := List.mem_filter.mp hk
      obtain ⟨hst, hrb, hb1⟩ := hBf k hmem.1
      have harr : k.arrivalTime ≤ s.currentTime := by simpa using hmem.2
      unfold ReadyOk
      rw [h2, h3, h4, h5]
      exact ⟨by omega, by omega, harr, fun _ => hrb, fun hne => absurd hst hne⟩
  by_cases hhas : sch2.hasJobs = true
  · rw [if_pos hhas]
    obtain ⟨j, rest, hgn, hqperm⟩ := getNextJob_spec sch2 ((hasJobs_iff _).mp hhas)
    have hjR : ReadyOk s.currentTime j := hQ2 j (hqperm.mem_iff.mpr (List.mem_cons_self _ _))
    have hrestR : ∀ k ∈ rest, ReadyOk s.currentTime k := fun k hk =>
      hQ2 k (hqperm.mem_iff.mpr (List.mem_cons_of_mem _ hk))
    obtain ⟨hr1, hr2, hr3, hr4, hr5⟩ := hjR
    have hsrem : (startJob s.currentTime j).remainingTime = j.remainingTime :=
      (startJob_fields _ _).2.2.2.1
    have hsarr : (startJob s.currentTime j).arrivalTime = j.arrivalTime :=
      (startJob_fields _ _).2.1
    have hsburst : (startJob s.currentTime j).burstTime = j.burstTime :=
      (startJob_fields _ _).2.2.1
    have hsst := startJob_start s.currentTime j
    rw [execPhase_eq hgn]
    by_cases hfin : (startJob s.currentTime j).remainingTime - 1 = 0
    · rw [if_pos hfin]
      rw [hsrem] at hfin
      refine ⟨show (0:Int) ≤ s.currentTime + 1 by omega, fun k hk => hRf k hk,
        fun k hk => ReadyOk_mono (hrestR k hk)
          (show s.currentTime ≤ s.currentTime + 1 by omega), ?_⟩
      intro k hk
      rcases List.mem_append.mp hk with hk | hk
      · exact hF k hk
      · have hkj := List.mem_singleton.mp hk
        rw [hkj]
        unfold FinishedOk
        by_cases hst0 : j.startTime = -1
        · have hei := hr4 hst0
          simp [Job.calculateMetrics, hsarr, hsburst, hsst, hst0]
          omega
        · obtain ⟨ha1, ha2⟩ := hr5 hst0
          simp [Job.calculateMetrics, hsarr, hsburst, hsst, hst0]
          omega
    · rw [if_neg hfin]
      rw [hsrem] at hfin
      refine ⟨show (0:Int) ≤ s.currentTime + 1 by omega, fun k hk => hRf k hk, ?_,
        fun k hk => hF k hk⟩
      intro k hk
      simp only [SchedState.addJob] at hk
      rcases List.mem_append.mp hk with hk | hk
      · exact ReadyOk_mono (hrestR k hk) (show s.currentTime ≤ s.currentTime + 1 by omega)
      · have hkj := List.mem_singleton.mp hk
        rw [hkj]
        unfold ReadyOk
        by_cases hst0 : j.startTime = -1
        · have hei := hr4 hst0
          simp [hsarr, hsburst, hsrem, hsst, hst0]
          omega
        · obtain ⟨ha1, ha2⟩ := hr5 hst0
          simp [hsarr, hsburst, hsrem, hsst, hst0]
          omega
  · rw [if_neg hhas]
    have hq2e : sch2.queue = [] := by
      by_contra hne
      exact hhas ((hasJobs_iff _).mpr hne)
    refine ⟨show (0:Int) ≤ s.currentTime + 1 by omega, fun k hk => hRf k hk, ?_,
      fun k hk => hF k hk⟩
    intro k hk
    have hk2 : k ∈ sch2.queue := hk
    rw [hq2e] at hk2
    exact absurd hk2 (List.not_mem_nil k)

theorem runFuel_fresh (n : Nat) : ∀ s : SimState, FreshInv s → FreshInv (runFuel n s) := by
  induction n with
  | zero => exact fun s h => h
  | succ k ih =>
    intro s h
    by_cases hd : loopDone s = true
    · rw [runFuel_done hd]
      exact h
    · have hnd : loopDone s = false := by
        cases hl : loopDone s
        · rfl
        · exact absurd hl hd
      have hr : runFuel (k + 1) s = runFuel k (simStep s) := by simp [runFuel, hnd]
      rw [hr]
      exact ih (simStep s) (simStep_fresh h)

/-! ### Claim C8: termination of the run loop -/

/-- C8: for every well-formed input (each job with `arrivalTime ≥ 0` and
`burstTime ≥ 1`, submitted with its full work remaining), `run()`
terminates for each of the scheduler variants: after finitely many loop
iterations the exit condition holds, i.e. the backlog is empty and the
policy's ready-set is empty.  Termination rests on the fact that the
backlog only shrinks and each selection strictly decreases the selected
job's remaining work (the measure `simMeasure` strictly decreases). -/
theorem run_terminates (sched : SchedState) (jobs : List Job)
    (h : ∀ j ∈ jobs, 0 ≤ j.arrivalTime ∧ 1 ≤ j.burstTime ∧ j.remainingTime = j.burstTime) :
    ∃ n, loopDone (runFuel n (createSimulator sched jobs)) = true := by
  have hInv : SimInv (createSimulator sched jobs) := by
    constructor
    · intro j hj
      have hj2 : j ∈ jobs := (setJobs_queue_perm sched jobs).mem_iff.mp hj
      obtain ⟨_, hb, hr⟩ := h j hj2
      omega
    · intro j hj
      obtain ⟨_, hb, hr⟩ := h j hj
      omega
  exact ⟨simMeasure _, runFuel_terminates _ _ hInv le_rfl⟩

/-- Witness for C8 at a concrete input: two well-formed jobs under FCFS. -/
theorem run_terminates_witness :
    (∀ j ∈ [mkJob 1 0 2 5, mkJob 2 3 1 0],
      0 ≤ j.arrivalTime ∧ 1 ≤ j.burstTime ∧ j.remainingTime = j.burstTime) ∧
    ∃ n, loopDone (runFuel n
      (createSimulator mkFCFSScheduler [mkJob 1 0 2 5, mkJob 2 3 1 0])) = true :=
  ⟨by decide, run_terminates mkFCFSScheduler [mkJob 1 0 2 5, mkJob 2 3 1 0] (by decide)⟩

/-! ### Claim C1: timeline length versus total burst time -/

/-- C1 counterexample: through `createSimulator` (which loads every job
into both the scheduler and the backlog) a single job with burst 1
produces a timeline of 2 entries, so the number of timeline records
differs from the sum of the submitted jobs' burst times. -/
theorem timeline_length_cex :
    loopDone (runFuel 2 (createSimulator mkFCFSScheduler [mkJob 1 0 1 0])) = true ∧
    ((runFuel 2 (createSimulator mkFCFSScheduler [mkJob 1 0 1 0])).ganttChart.length : Int)
      ≠ sumBurst [mkJob 1 0 1 0] := by
  decide

/-- C1 (amended): when the scheduler's ready-set starts empty, so that
jobs reach the policy only through the backlog admission of the `run()`
loop, the number of timeline entries at loop exit equals the sum of the
jobs' burst times: each unit of work produces exactly one record and
idle ticks produce none.  (Under `createSimulator` the same jobs are
additionally pre-loaded into the scheduler, which doubles the count.) -/
theorem timeline_length_amended (sched : SchedState) (jobs : List Job) (n : Nat)
    (hq : sched.queue = [])
    (h : ∀ j ∈ jobs, j.remainingTime = j.burstTime ∧ 1 ≤ j.burstTime)
    (hdone : loopDone (runFuel n (mkSimulator sched jobs)) = true) :
    ((runFuel n (mkSimulator sched jobs)).ganttChart.length : Int) = sumBurst jobs := by
  have hInv : SimInv (mkSimulator sched jobs) := by
    constructor
    · intro j hj
      rw [show (mkSimulator sched jobs).sched = sched from rfl, hq] at hj
      exact absurd hj (List.not_mem_nil j)
    · intro j hj
      obtain ⟨hr, hb⟩ := h j hj
      omega
  obtain ⟨_, hc⟩ := runFuel_conserve n _ hInv
  obtain ⟨hje, hqe⟩ := (loopDone_true_iff _).mp hdone
  rw [hje, hqe] at hc
  simp only [mkSimulator] at hc
  rw [hq] at hc
  have hz : remWeight ([] : List Job) = 0 := rfl
  have hlen : (runFuel n (mkSimulator sched jobs)).ganttChart.length = remWeight jobs := by
    simpa [hz] using hc
  rw [hlen]
  exact remWeight_eq_sumBurst h

/-! ### Claim C2: ordering of arrival, start, completion, waiting -/

/-- C2 counterexample: through `createSimulator` a job with arrival time
5 is pre-loaded into the scheduler and selected at time 0, so the
finished collection contains a job with `startTime < arrivalTime` and a
negative `waitingTime`. -/
theorem finished_ordering_cex :
    ∃ j ∈ (runFuel 1 (createSimulator mkFCFSScheduler [mkJob 1 5 1 0])).finishedJobs,
      j.startTime < j.arrivalTime ∧ j.waitingTime < 0 := by
  decide

/-- C2 (amended): when jobs reach the policy only through the arrival
admission of the `run()` loop (ready-set initially empty, jobs submitted
fresh with `burstTime ≥ 1`), every job in the finished collection
satisfies `arrivalTime ≤ startTime ≤ completionTime` and
`waitingTime ≥ 0`; `startTime` is stamped at the job's first execution
(the loop assigns it only while it is the `-1` sentinel).  Under
`createSimulator` the jobs are additionally pre-loaded into the
scheduler and can be selected before arrival, which violates the
original claim. -/
theorem finished_ordering_amended (sched : SchedState) (jobs : List Job) (n : Nat)
    (hq : sched.queue = [])
    (h : ∀ j ∈ jobs, j.startTime = -1 ∧ j.remainingTime = j.burstTime ∧ 1 ≤ j.burstTime) :
    ∀ j ∈ (runFuel n (mkSimulator sched jobs)).finishedJobs,
      j.arrivalTime ≤ j.startTime ∧ j.startTime ≤ j.completionTime ∧ 0 ≤ j.waitingTime := by
  have hInit : FreshInv (mkSimulator sched jobs) := by
    refine ⟨le_refl (0:Int), fun j hj => h j hj, ?_, fun j hj => absurd hj (List.not_mem_nil j)⟩
    intro j hj
    have hj2 : j ∈ sched.queue := hj
    rw [hq] at hj2
    exact absurd hj2 (List.not_mem_nil j)
  have hfin := (runFuel_fresh n _ hInit).2.2.2
  exact fun j hj => hfin j hj

/-- Witness for C2 (amended) at a concrete input: two fresh jobs under
FCFS with an empty initial ready-set. -/
theorem finished_ordering_amended_witness :
    (mkFCFSScheduler.queue = []) ∧
    (∀ j ∈ [mkJob 1 0 2 0, mkJob 2 1 1 0],
      j.startTime = -1 ∧ j.remainingTime = j.burstTime ∧ 1 ≤ j.burstTime) ∧
    ∀ j ∈ (runFuel 3 (mkSimulator mkFCFSScheduler [mkJob 1 0 2 0, mkJob 2 1 1 0])).finishedJobs,
      j.arrivalTime ≤ j.startTime ∧ j.startTime ≤ j.completionTime ∧ 0 ≤ j.waitingTime :=
  ⟨rfl, by decide,
    finished_ordering_amended mkFCFSScheduler [mkJob 1 0 2 0, mkJob 2 1 1 0] 3 rfl (by decide)⟩

/-- Witness for C1 (amended) at a concrete input: two jobs under FCFS
with an empty initial ready-set; the run exits after 3 iterations with
3 timeline entries, the total burst. -/
theorem timeline_length_amended_witness :
    (mkFCFSScheduler.queue = []) ∧
    (∀ j ∈ [mkJob 1 0 2 0, mkJob 2 1 1 0], j.remainingTime = j.burstTime ∧ 1 ≤ j.burstTime) ∧
    loopDone (runFuel 3 (mkSimulator mkFCFSScheduler [mkJob 1 0 2 0, mkJob 2 1 1 0])) = true ∧
    ((runFuel 3 (mkSimulator mkFCFSScheduler [mkJob 1 0 2 0, mkJob 2 1 1 0])).ganttChart.length
        : Int)
      = sumBurst [mkJob 1 0 2 0, mkJob 2 1 1 0] :=
  ⟨rfl, by decide, by decide,
    timeline_length_amended mkFCFSScheduler [mkJob 1 0 2 0, mkJob 2 1 1 0] 3 rfl
      (by decide) (by decide)⟩

/-! ### Claim C3: derived metrics of finished jobs -/

theorem simStep_metrics {s : SimState} (h : ∀ j ∈ s.finishedJobs, MetricsOk j) :
    (∀ j ∈ (simStep s).finishedJobs, MetricsOk j) ∧
    ∃ l, (simStep s).finishedJobs = s.finishedJobs ++ l := by
  rw [simStep_eq s]
  by_cases hhas : (SchedState.schedule
      { s.sched with queue :=
          s.sched.queue ++ s.allJobs.filter (fun j => decide (j.arrivalTime ≤ s.currentTime)) }
      s.currentTime).hasJobs = true
  · rw [if_pos hhas]
    obtain ⟨j, rest, hgn, -⟩ := getNextJob_spec _ ((hasJobs_iff _).mp hhas)
    rw [execPhase_eq hgn]
    by_cases hfin : (startJob s.currentTime j).remainingTime - 1 = 0
    · rw [if_pos hfin]
      constructor
      · intro k hk
        rcases List.mem_append.mp hk with hk | hk
        · exact h k hk
        · have hkj := List.mem_singleton.mp hk
          rw [hkj]
          unfold MetricsOk Job.calculateMetrics
          exact ⟨rfl, rfl⟩
      · exact ⟨_, rfl⟩
    · rw [if_neg hfin]
      exact ⟨fun k hk => h k hk, [], (List.append_nil _).symm⟩
  · rw [if_neg hhas]
    exact ⟨fun k hk => h k hk, [], (List.append_nil _).symm⟩

theorem runFuel_metrics (n : Nat) : ∀ s : SimState, (∀ j ∈ s.finishedJobs, MetricsOk j) →
    (∀ j ∈ (runFuel n s).finishedJobs, MetricsOk j) ∧
    ∃ l, (runFuel n s).finishedJobs = s.finishedJobs ++ l := by
  induction n with
  | zero => exact fun s h => ⟨h, [], (List.append_nil _).symm⟩
  | succ k ih =>
    intro s h
    by_cases hd : loopDone s = true
    · rw [runFuel_done hd]
      exact ⟨h, [], (List.append_nil _).symm⟩
    · have hnd : loopDone s = false := by
        cases hl : loopDone s
        · rfl
        · exact absurd hl hd
      have hr : runFuel (k + 1) s = runFuel k (simStep s) := by simp [runFuel, hnd]
      rw [hr]
      obtain ⟨h1, l1, hl1⟩ := simStep_metrics h
      obtain ⟨h2, l2, hl2⟩ := ih (simStep s) h1
      exact ⟨h2, l1 ++ l2, by rw [hl2, hl1, List.append_assoc]⟩

/-- C3: if every already-finished job satisfies the metric equations
(vacuously true of a fresh simulation), then after any number of loop
iterations every job in the finished collection satisfies
`turnaroundTime = completionTime - arrivalTime` and
`waitingTime = turnaroundTime - burstTime` (the values
`Job::calculateMetrics` computes at the moment `remainingTime` reaches
0), and the finished collection only ever grows by appending — already
recorded jobs and their metrics are never changed afterwards. -/
theorem metrics_at_completion (s : SimState) (h0 : ∀ j ∈ s.finishedJobs, MetricsOk j)
    (n m : Nat) :
    (∀ j ∈ (runFuel n s).finishedJobs,
      j.turnaroundTime = j.completionTime - j.arrivalTime ∧
      j.waitingTime = j.turnaroundTime - j.burstTime) ∧
    ∃ l, (runFuel (n + m) s).finishedJobs = (runFuel n s).finishedJobs ++ l := by
  constructor
  · exact fun j hj => (runFuel_metrics n s h0).1 j hj
  · rw [runFuel_add]
    exact (runFuel_metrics m (runFuel n s) ((runFuel_metrics n s h0).1)).2

/-- Witness for C3 at a concrete input: one job under FCFS, inspected
after 1 iteration with 2 further iterations of growth. -/
theorem metrics_at_completion_witness :
    (∀ j ∈ (mkSimulator mkFCFSScheduler [mkJob 1 0 2 0]).finishedJobs, MetricsOk j) ∧
    ((∀ j ∈ (runFuel 1 (mkSimulator mkFCFSScheduler [mkJob 1 0 2 0])).finishedJobs,
      j.turnaroundTime = j.completionTime - j.arrivalTime ∧
      j.waitingTime = j.turnaroundTime - j.burstTime) ∧
    ∃ l, (runFuel (1 + 2) (mkSimulator mkFCFSScheduler [mkJob 1 0 2 0])).finishedJobs
      = (runFuel 1 (mkSimulator mkFCFSScheduler [mkJob 1 0 2 0])).finishedJobs ++ l) :=
  ⟨fun j hj => absurd hj (List.not_mem_nil j),
    metrics_at_completion (mkSimulator mkFCFSScheduler [mkJob 1 0 2 0])
      (fun j hj => absurd hj (List.not_mem_nil j)) 1 2⟩

/-! ### Claim C9: jobs with zero burst time -/

theorem simStep_noFinish {s : SimState} {x : Int}
    (hB : ∀ j ∈ s.allJobs, j.jobId = x → j.remainingTime ≤ 0)
    (hQ : ∀ j ∈ s.sched.queue, j.jobId = x → j.remainingTime ≤ 0)
    (hF : ∀ j ∈ s.finishedJobs, j.jobId ≠ x) :
    (∀ j ∈ (simStep s).allJobs, j.jobId = x → j.remainingTime ≤ 0) ∧
    (∀ j ∈ (simStep s).sched.queue, j.jobId = x → j.remainingTime ≤ 0) ∧
    (∀ j ∈ (simStep s).finishedJobs, j.jobId ≠ x) := by
  rw [simStep_eq s]
  set A := s.allJobs.filter (fun j => decide (j.arrivalTime ≤ s.currentTime)) with hA
  set R := s.allJobs.filter (fun j => !decide (j.arrivalTime ≤ s.currentTime)) with hR
  set sch2 := SchedState.schedule { s.sched with queue := s.sched.queue ++ A } s.currentTime
    with hsch2
  have hsq : ((sch2.queue).map Job.core).Perm ((s.sched.queue ++ A).map Job.core) :=
    schedule_core_perm _ _
  have hRB : ∀ j ∈ R, j.jobId = x → j.remainingTime ≤ 0 := fun j hj =>
    hB j (List.mem_of_mem_filter hj)
  have hQ2 : ∀ j ∈ sch2.queue, j.jobId = x → j.remainingTime ≤ 0 := by
    intro j hj
    obtain ⟨k, hk, hc⟩ := corePerm_mem hsq j hj
    obtain ⟨h1, -, -, h4, -, -, -, -⟩ := core_fields hc
    rw [h1, h4]
    rcases List.mem_append.mp hk with hk | hk
    · exact hQ k hk
    · exact hB k (List.mem_of_mem_filter hk)
  by_cases hhas : sch2.hasJobs = true
  · rw [if_pos hhas]
    obtain ⟨j, rest, hgn, hqperm⟩ := getNextJob_spec sch2 ((hasJobs_iff _).mp hhas)
    have hjQ : j.jobId = x → j.remainingTime ≤ 0 :=
      hQ2 j (hqperm.mem_iff.mpr (List.mem_cons_self _ _))
    have hrest : ∀ k ∈ rest, k.jobId = x → k.remainingTime ≤ 0 := fun k hk =>
      hQ2 k (hqperm.mem_iff.mpr (List.mem_cons_of_mem _ hk))
    have hsrem : (startJob s.currentTime j).remainingTime = j.remainingTime :=
      (startJob_fields _ _).2.2.2.1
    have hsid : (startJob s.currentTime j).jobId = j.jobId :=
      (startJob_fields _ _).1
    rw [execPhase_eq hgn]
    by_cases hfin : (startJob s.currentTime j).remainingTime - 1 = 0
    · rw [if_pos hfin]
      rw [hsrem] at hfin
      have hjx : j.jobId ≠ x := by
        intro hx
        have := hjQ hx
        omega
      refine ⟨fun k hk => hRB k hk, fun k hk => hrest k hk, ?_⟩
      intro k hk
      rcases List.mem_append.mp hk with hk | hk
      · exact hF k hk
      · have hkj := List.mem_singleton.mp hk
        rw [hkj]
        unfold Job.calculateMetrics
        simpa [hsid] using hjx
    · rw [if_neg hfin]
      refine ⟨fun k hk => hRB k hk, ?_, fun k hk => hF k hk⟩
      intro k hk
      simp only [SchedState.addJob] at hk
      rcases List.mem_append.mp hk with hk | hk
      · exact hrest k hk
      · have hkj := List.mem_singleton.mp hk
        rw [hkj]
        intro hx
        simp only [hsid] at hx
        have := hjQ hx
        simp [hsrem]
        omega
  · rw [if_neg hhas]
    have hq2e : sch2.queue = [] := by
      by_contra hne
      exact hhas ((hasJobs_iff _).mpr hne)
    refine ⟨fun k hk => hRB k hk, ?_, fun k hk => hF k hk⟩
    intro k hk
    have hk2 : k ∈ sch2.queue := hk
    rw [hq2e] at hk2
    exact absurd hk2 (List.not_mem_nil k)

theorem runFuel_noFinish (n : Nat) : ∀ s : SimState, ∀ x : Int,
    (∀ j ∈ s.allJobs, j.jobId = x → j.remainingTime ≤ 0) →
    (∀ j ∈ s.sched.queue, j.jobId = x → j.remainingTime ≤ 0) →
    (∀ j ∈ s.finishedJobs, j.jobId ≠ x) →
    ∀ j ∈ (runFuel n s).finishedJobs, j.jobId ≠ x := by
  induction n with
  | zero => exact fun s x hB hQ hF => hF
  | succ k ih =>
    intro s x hB hQ hF
    by_cases hd : loopDone s = true
    · rw [runFuel_done hd]
      exact hF
    · have hnd : loopDone s = false := by
        cases hl : loopDone s
        · rfl
        · exact absurd hl hd
      have hr : runFuel (k + 1) s = runFuel k (simStep s) := by simp [runFuel, hnd]
      rw [hr]
      obtain ⟨h1, h2, h3⟩ := simStep_noFinish hB hQ hF
      exact ih (simStep s) x h1 h2 h3

/-- C9 counterexample: a job with `burstTime = 0` IS selected for
execution by the simulation loop — with a single burst-0 job in the
backlog and an FCFS scheduler, the very first iteration admits it,
selects it and appends a timeline record for it. -/
theorem burst_zero_selected_cex :
    (mkJob 1 0 0 0).burstTime = 0 ∧
    (runFuel 1 (mkSimulator mkFCFSScheduler [mkJob 1 0 0 0])).ganttChart = [(1, 0)] := by
  decide

/-- C9 (amended): a job submitted with `burstTime = 0` may well be
selected for execution (the schedulers pop jobs regardless of remaining
work), but it never finishes: its remaining time only moves further
below zero, it never satisfies the `remainingTime == 0` completion test,
and hence no job with its id is ever appended to the finished
collection. -/
theorem burst_zero_never_finishes (sched : SchedState) (jobs : List Job) (x : Int) (n : Nat)
    (h : ∀ j ∈ jobs, j.jobId = x → j.burstTime = 0 ∧ j.remainingTime = j.burstTime) :
    ∀ j ∈ (runFuel n (createSimulator sched jobs)).finishedJobs, j.jobId ≠ x := by
  have hB : ∀ j ∈ jobs, j.jobId = x → j.remainingTime ≤ 0 := by
    intro j hj hx
    obtain ⟨hb, hr⟩ := h j hj hx
    omega
  apply runFuel_noFinish n _ x hB
  · intro j hj
    exact hB j ((setJobs_queue_perm sched jobs).mem_iff.mp hj)
  · intro j hj
    exact absurd hj (List.not_mem_nil j)

/-- Witness for C9 (amended) at a concrete input: a burst-0 job under
FCFS via `createSimulator`; after 5 iterations nothing carrying its id
has finished. -/
theorem burst_zero_never_finishes_witness :
    (∀ j ∈ [mkJob 1 0 0 0], j.jobId = 1 → j.burstTime = 0 ∧ j.remainingTime = j.burstTime) ∧
    ∀ j ∈ (runFuel 5 (createSimulator mkFCFSScheduler [mkJob 1 0 0 0])).finishedJobs,
      j.jobId ≠ 1 :=
  ⟨by decide, burst_zero_never_finishes mkFCFSScheduler [mkJob 1 0 0 0] 1 5 (by decide)⟩

/-! ### Claims C4 and C5: FCFS versus RoundRobin, and the stored quantum -/

theorem ql_schedule {st : SchedState} (h : QueueLike st.variant) (t : Int) :
    st.schedule t = st := by
  unfold SchedState.schedule
  rcases h with h | h <;> rw [h]

theorem ql_getNextJob {st : SchedState} (h : QueueLike st.variant) :
    st.getNextJob =
      match st.queue with
      | [] => (sentinelJob, st)
      | j :: rest =>
          (j, { st with queue := rest, scheduledJobs := st.scheduledJobs ++ [j] }) := by
  unfold SchedState.getNextJob
  rcases h with h | h <;> rw [h]

theorem simStep_rel {s1 s2 : SimState} (h : SimRel s1 s2) : SimRel (simStep s1) (simStep s2) := by
  obtain ⟨ht, hj, hf, hg, hq, hsj, hv1, hv2⟩ := h
  rw [simStep_eq s1, simStep_eq s2]
  set A := s1.allJobs.filter (fun j => decide (j.arrivalTime ≤ s1.currentTime)) with hA
  set R := s1.allJobs.filter (fun j => !decide (j.arrivalTime ≤ s1.currentTime)) with hR
  have hA2 : s2.allJobs.filter (fun j => decide (j.arrivalTime ≤ s2.currentTime)) = A := by
    rw [hA, ht, hj]
  have hR2 : s2.allJobs.filter (fun j => !decide (j.arrivalTime ≤ s2.currentTime)) = R := by
    rw [hR, ht, hj]
  rw [hA2, hR2]
  set u1 : SchedState := { s1.sched with queue := s1.sched.queue ++ A } with hu1
  set u2 : SchedState := { s2.sched with queue := s2.sched.queue ++ A } with hu2
  have hv1u : QueueLike u1.variant := hv1
  have hv2u : QueueLike u2.variant := hv2
  have hquu : u1.queue = u2.queue := by
    show s1.sched.queue ++ A = s2.sched.queue ++ A
    rw [hq]
  have hsjq : u1.scheduledJobs = u2.scheduledJobs := hsj
  rw [ql_schedule hv1u, ql_schedule hv2u]
  have hhaseq : u1.hasJobs = u2.hasJobs := by
    unfold SchedState.hasJobs
    rw [hquu]
  by_cases hhas : u1.hasJobs = true
  · rw [if_pos hhas, if_pos (by rw [← hhaseq]; exact hhas)]
    cases hqu : u1.queue with
    | nil => exact absurd hqu ((hasJobs_iff _).mp hhas)
    | cons j rest =>
      have hgn1 : u1.getNextJob =
          (j, { u1 with queue := rest, scheduledJobs := u1.scheduledJobs ++ [j] }) := by
        rw [ql_getNextJob hv1u, hqu]
      have hgn2 : u2.getNextJob =
          (j, { u2 with queue := rest, scheduledJobs := u2.scheduledJobs ++ [j] }) := by
        rw [ql_getNextJob hv2u, ← hquu, hqu]
      rw [execPhase_eq hgn1, execPhase_eq hgn2, ← ht, ← hf, ← hg]
      by_cases hfin : (startJob s1.currentTime j).remainingTime - 1 = 0
      · rw [if_pos hfin, if_pos hfin]
        refine ⟨rfl, rfl, rfl, rfl, rfl, ?_, hv1u, hv2u⟩
        show u1.scheduledJobs ++ [j] = u2.scheduledJobs ++ [j]
        rw [hsjq]
      · rw [if_neg hfin, if_neg hfin]
        refine ⟨rfl, rfl, rfl, rfl, rfl, ?_, hv1u, hv2u⟩
        show u1.scheduledJobs ++ [j] = u2.scheduledJobs ++ [j]
        rw [hsjq]
  · rw [if_neg hhas, if_neg (by rw [← hhaseq]; exact hhas)]
    exact ⟨by rw [ht], rfl, hf, hg, hquu, hsjq, hv1u, hv2u⟩

theorem runFuel_rel (n : Nat) : ∀ s1 s2 : SimState, SimRel s1 s2 →
    SimRel (runFuel n s1) (runFuel n s2) := by
  induction n with
  | zero => exact fun s1 s2 h => h
  | succ k ih =>
    intro s1 s2 h
    have hld : loopDone s1 = loopDone s2 := by
      obtain ⟨ht, hj, hf, hg, hq, hsj, hv1, hv2⟩ := h
      unfold loopDone SchedState.hasJobs
      rw [hj, hq]
    by_cases hd : loopDone s1 = true
    · rw [runFuel_done hd, runFuel_done (by rw [← hld]; exact hd)]
      exact h
    · have hnd1 : loopDone s1 = false := by
        cases hl : loopDone s1
        · rfl
        · exact absurd hl hd
      have hnd2 : loopDone s2 = false := by rw [← hld]; exact hnd1
      rw [show runFuel (k + 1) s1 = runFuel k (simStep s1) by simp [runFuel, hnd1],
          show runFuel (k + 1) s2 = runFuel k (simStep s2) by simp [runFuel, hnd2]]
      exact ih _ _ (simStep_rel h)

/-- C4: on identical job lists the simulator produces the identical
timeline under the FCFS scheduler and under the RoundRobin scheduler
(for any configured quantum): both are plain insertion-order queues
under the one-unit-per-selection driver. -/
theorem fcfs_rr_same_timeline (jobs : List Job) (q : Int) (n : Nat) :
    (runFuel n (createSimulator mkFCFSScheduler jobs)).ganttChart
      = (runFuel n (createSimulator (mkRoundRobinScheduler q) jobs)).ganttChart := by
  have h0 : SimRel (createSimulator mkFCFSScheduler jobs)
      (createSimulator (mkRoundRobinScheduler q) jobs) :=
    ⟨rfl, rfl, rfl, rfl, rfl, rfl, Or.inl rfl, Or.inr rfl⟩
  exact (runFuel_rel n _ _ h0).2.2.2.1

/-- C5: the stored RoundRobin time quantum never influences the
simulation: for any two quanta the timelines and the finished-job
sequences coincide on every input (no job ever runs more than one unit
per selection, so the quantum is dead configuration). -/
theorem rr_quantum_irrelevant (jobs : List Job) (q1 q2 : Int) (n : Nat) :
    (runFuel n (createSimulator (mkRoundRobinScheduler q1) jobs)).ganttChart
      = (runFuel n (createSimulator (mkRoundRobinScheduler q2) jobs)).ganttChart ∧
    (runFuel n (createSimulator (mkRoundRobinScheduler q1) jobs)).finishedJobs
      = (runFuel n (createSimulator (mkRoundRobinScheduler q2) jobs)).finishedJobs := by
  have h0 : SimRel (createSimulator (mkRoundRobinScheduler q1) jobs)
      (createSimulator (mkRoundRobinScheduler q2) jobs) :=
    ⟨rfl, rfl, rfl, rfl, rfl, rfl, Or.inr rfl, Or.inr rfl⟩
  have h := runFuel_rel n _ _ h0
  exact ⟨h.2.2.2.1, h.2.2.1⟩

/-! ### Claim C6: SJF selects a minimum-remaining-time job -/

/-- C6: whenever the SJF scheduler's ready-set holds two or more jobs,
the job removed and returned by `getNextJob` is one of the ready jobs
and its `remainingTime` does not exceed the `remainingTime` of any job
in the ready-set (so it never exceeds that of some other ready job;
`std::min_element` breaks ties by taking the first minimum in ready-set
order). -/
theorem sjf_selects_min (st : SchedState) (hv : st.variant = Variant.sjf)
    (hlen : 2 ≤ st.queue.length) :
    (st.getNextJob).1 ∈ st.queue ∧
    ∀ k ∈ st.queue, (st.getNextJob).1.remainingTime ≤ k.remainingTime := by
  have hne : st.queue ≠ [] := by
    intro he
    rw [he] at hlen
    simp at hlen
  cases hm : selectMinBy (fun j => j.remainingTime) st.queue with
  | none => exact absurd (selectMinBy_eq_none hm) hne
  | some p =>
    obtain ⟨j0, r0⟩ := p
    have hspec := selectMinBy_spec hm
    have hgn : st.getNextJob =
        (j0, { st with queue := r0, scheduledJobs := st.scheduledJobs ++ [j0] }) := by
      cases st with
      | mk v q tq th inc sj =>
        cases v with
        | sjf => simp [SchedState.getNextJob, hm]
        | fcfs => exact Variant.noConfusion hv
        | rr => exact Variant.noConfusion hv
        | prio => exact Variant.noConfusion hv
    rw [hgn]
    exact ⟨hspec.1.mem_iff.mpr (List.mem_cons_self _ _), hspec.2⟩

/-- Witness for C6 at a concrete ready-set of three jobs whose remaining
times are 3, 1, 2: the selected job is the one with remaining time 1. -/
theorem sjf_selects_min_witness :
    ((SchedState.mk Variant.sjf [mkJob 1 0 3 0, mkJob 2 0 1 0, mkJob 3 0 2 0] 0 0 0 []).variant
      = Variant.sjf) ∧
    (2 ≤ (SchedState.mk Variant.sjf [mkJob 1 0 3 0, mkJob 2 0 1 0, mkJob 3 0 2 0]
      0 0 0 []).queue.length) ∧
    (((SchedState.mk Variant.sjf [mkJob 1 0 3 0, mkJob 2 0 1 0, mkJob 3 0 2 0]
        0 0 0 []).getNextJob).1
      ∈ (SchedState.mk Variant.sjf [mkJob 1 0 3 0, mkJob 2 0 1 0, mkJob 3 0 2 0]
        0 0 0 []).queue ∧
    ∀ k ∈ (SchedState.mk Variant.sjf [mkJob 1 0 3 0, mkJob 2 0 1 0, mkJob 3 0 2 0]
        0 0 0 []).queue,
      ((SchedState.mk Variant.sjf [mkJob 1 0 3 0, mkJob 2 0 1 0, mkJob 3 0 2 0]
        0 0 0 []).getNextJob).1.remainingTime ≤ k.remainingTime) :=
  ⟨rfl, by decide,
    sjf_selects_min (SchedState.mk Variant.sjf [mkJob 1 0 3 0, mkJob 2 0 1 0, mkJob 3 0 2 0]
      0 0 0 []) rfl (by decide)⟩

/-! ### Claim C7: priority aging and minimum-priority selection -/

/-- C7: one `schedule(currentTime)` call of the PriorityAging scheduler
turns its ready-set into (a sorted permutation of) the pointwise aging
of the previous ready-set, where a ready job is aged to
`priority = max 0 (priority - agingIncrement)` exactly when
`currentTime - arrivalTime > agingThreshold`; aged priorities are
non-increasing (given a non-negative increment and non-negative
priorities) and never negative; and `getNextJob` then removes and
returns a ready job of minimum priority (`std::min_element` takes the
first minimum in ready-set order). -/
theorem priority_aging_schedule (th inc t : Int) (q q2 sj sj2 : List Job)
    (hinc : 0 ≤ inc) (hq : ∀ j ∈ q, 0 ≤ j.priority) (hne : q2 ≠ []) :
    ((SchedState.mk Variant.prio q 0 th inc sj).schedule t).queue.Perm
      (q.map fun j => if t - j.arrivalTime > th then
        { j with priority := max 0 (j.priority - inc) } else j) ∧
    (∀ j ∈ ((SchedState.mk Variant.prio q 0 th inc sj).schedule t).queue, 0 ≤ j.priority) ∧
    (∀ j ∈ q, (if t - j.arrivalTime > th then
        { j with priority := max 0 (j.priority - inc) } else j).priority ≤ j.priority) ∧
    ((SchedState.mk Variant.prio q2 0 th inc sj2).getNextJob).1 ∈ q2 ∧
    (∀ k ∈ q2,
      ((SchedState.mk Variant.prio q2 0 th inc sj2).getNextJob).1.priority ≤ k.priority) := by
  have hmax : ∀ p : Int, (if p < 0 then (0:Int) else p) = max 0 p := by
    intro p
    rw [max_def]
    by_cases hp : p < 0
    · rw [if_pos hp, if_neg (by omega)]
    · rw [if_neg hp, if_pos (by omega)]
  have hmap : applyAging th inc t q = q.map fun j => if t - j.arrivalTime > th then
      { j with priority := max 0 (j.priority - inc) } else j := by
    unfold applyAging
    congr 1
    funext j
    by_cases hc : th < t - j.arrivalTime
    · simp only [hc, if_pos, gt_iff_lt, if_true]
      rw [hmax]
    · simp only [hc, gt_iff_lt, if_false, if_neg hc]
  have hperm : ((SchedState.mk Variant.prio q 0 th inc sj).schedule t).queue.Perm
      (q.map fun j => if t - j.arrivalTime > th then
        { j with priority := max 0 (j.priority - inc) } else j) := by
    have hp := sortByKey_perm (fun j => j.priority) (applyAging th inc t q)
    exact hp.trans (by rw [hmap])
  refine ⟨hperm, ?_, ?_, ?_, ?_⟩
  · intro j hj
    have hj2 := hperm.mem_iff.mp hj
    obtain ⟨k, hk, hkj⟩ := List.mem_map.mp hj2
    rw [← hkj]
    by_cases hc : t - k.arrivalTime > th
    · simp only [hc, if_true]
      exact le_max_left 0 _
    · simp only [hc, if_false]
      exact hq k hk
  · intro j hj
    by_cases hc : t - j.arrivalTime > th
    · simp only [hc, if_true]
      exact max_le_iff.mpr ⟨hq j hj, by omega⟩
    · simp only [hc, if_false]
      exact le_refl _
  · cases hm : selectMinBy (fun j => j.priority) q2 with
    | none => exact absurd (selectMinBy_eq_none hm) hne
    | some p =>
      obtain ⟨j0, r0⟩ := p
      have hspec := selectMinBy_spec hm
      have hgn : (SchedState.mk Variant.prio q2 0 th inc sj2).getNextJob =
          (j0, { SchedState.mk Variant.prio q2 0 th inc sj2 with
                 queue := r0, scheduledJobs := sj2 ++ [j0] }) := by
        simp [SchedState.getNextJob, hm]
      rw [hgn]
      exact hspec.1.mem_iff.mpr (List.mem_cons_self _ _)
  · cases hm : selectMinBy (fun j => j.priority) q2 with
    | none => exact absurd (selectMinBy_eq_none hm) hne
    | some p =>
      obtain ⟨j0, r0⟩ := p
      have hspec := selectMinBy_spec hm
      have hgn : (SchedState.mk Variant.prio q2 0 th inc sj2).getNextJob =
          (j0, { SchedState.mk Variant.prio q2 0 th inc sj2 with
                 queue := r0, scheduledJobs := sj2 ++ [j0] }) := by
        simp [SchedState.getNextJob, hm]
      rw [hgn]
      exact hspec.2

/-- Witness for C7 at a concrete input: threshold 5, increment 2, time
8, a ready-set of two non-negative-priority jobs (one old enough to
age), and a selection set of two jobs. -/
theorem priority_aging_schedule_witness :
    ((0:Int) ≤ 2) ∧ (∀ j ∈ [mkJob 1 0 7 4, mkJob 2 6 3 1], 0 ≤ j.priority) ∧
    ([mkJob 3 0 2 9, mkJob 4 0 2 5] ≠ ([] : List Job)) ∧
    (((SchedState.mk Variant.prio [mkJob 1 0 7 4, mkJob 2 6 3 1] 0 5 2 []).schedule 8).queue.Perm
      ([mkJob 1 0 7 4, mkJob 2 6 3 1].map fun j => if 8 - j.arrivalTime > 5 then
        { j with priority := max 0 (j.priority - 2) } else j) ∧
    (∀ j ∈ ((SchedState.mk Variant.prio [mkJob 1 0 7 4, mkJob 2 6 3 1] 0 5 2 []).schedule 8).queue,
      0 ≤ j.priority) ∧
    (∀ j ∈ [mkJob 1 0 7 4, mkJob 2 6 3 1], (if 8 - j.arrivalTime > 5 then
        { j with priority := max 0 (j.priority - 2) } else j).priority ≤ j.priority) ∧
    ((SchedState.mk Variant.prio [mkJob 3 0 2 9, mkJob 4 0 2 5] 0 5 2 []).getNextJob).1
      ∈ [mkJob 3 0 2 9, mkJob 4 0 2 5] ∧
    (∀ k ∈ [mkJob 3 0 2 9, mkJob 4 0 2 5],
      ((SchedState.mk Variant.prio [mkJob 3 0 2 9, mkJob 4 0 2 5] 0 5 2 []).getNextJob).1.priority
        ≤ k.priority)) :=
  ⟨by decide, by decide, by decide,
    priority_aging_schedule 5 2 8 [mkJob 1 0 7 4, mkJob 2 6 3 1] [mkJob 3 0 2 9, mkJob 4 0 2 5]
      [] [] (by decide) (by decide) (by decide)⟩

/-! ### Claim C10: `getNextJob` on an empty ready-set -/

/-- C10: for every scheduler state (hence for each of the four
variants), calling `getNextJob` with an empty ready-set does not fail:
it returns the sentinel job `Job(-1, 0, 0, 0)` — whose `jobId` is `-1`,
`burstTime` is 0 and `remainingTime` is 0 — and returns the scheduler
state unchanged, so the ready-set and the `scheduledJobs` log are
untouched. -/
theorem getNextJob_empty_sentinel (st : SchedState) (h : st.queue = []) :
    st.getNextJob = (sentinelJob, st) ∧ sentinelJob.jobId = -1 ∧
    sentinelJob.burstTime = 0 ∧ sentinelJob.remainingTime = 0 :=
  ⟨getNextJob_empty st h, rfl, rfl, rfl⟩

/-- Witness for C10 at a concrete scheduler state (SJF variant with an
empty ready-set and a non-empty log). -/
theorem getNextJob_empty_sentinel_witness :
    ((SchedState.mk Variant.sjf [] 0 5 1 [mkJob 1 0 1 0]).queue = []) ∧
    ((SchedState.mk Variant.sjf [] 0 5 1 [mkJob 1 0 1 0]).getNextJob
        = (sentinelJob, SchedState.mk Variant.sjf [] 0 5 1 [mkJob 1 0 1 0]) ∧
      sentinelJob.jobId = -1 ∧ sentinelJob.burstTime = 0 ∧ sentinelJob.remainingTime = 0) :=
  ⟨rfl, getNextJob_empty_sentinel (SchedState.mk Variant.sjf [] 0 5 1 [mkJob 1 0 1 0]) rfl⟩

end JobSched
